import Mathlib

/-!
Verification of the SQL guardrail pipeline of `src/Nl2sql/Generate_sql.py`
(`sanitize_sql`, `add_default_limit`, `execute_sql`, `nl2sql_run`).

The Python code validates a candidate SQL string with regular-expression
gates, rewrites it with a default `LIMIT`, and executes it under a row cap.
The regular expressions used by the source are fixed, simple patterns
(`^\s*SELECT\b`, `\b(DROP|...)\b`, `\bFROM\s+([A-Za-z_][A-Za-z0-9_]*)`,
`\b([A-Za-z_][A-Za-z0-9_]*)\.([A-Za-z_][A-Za-z0-9_]*)`, `\bLIMIT\s+\d+\b`),
so each one is embedded here as an executable scanner over `List Char` that
reproduces the search / finditer semantics of those patterns (including the
word-boundary tests and the continuation point after a non-overlapping
match).  Character classes follow the ASCII behaviour of the patterns.
-/

set_option maxRecDepth 8000

/-- Word character of the patterns, class `[A-Za-z0-9_]` (`\w`). -/
def isWordChar (c : Char) : Bool := c.isAlpha || c.isDigit || c == '_'

/-- First character of an identifier, class `[A-Za-z_]`. -/
def isIdentStart (c : Char) : Bool := c.isAlpha || c == '_'

/-- Whitespace as used by `str.strip` and the `\s` class (ASCII part). -/
def isSpaceChar (c : Char) : Bool :=
  c == ' ' || c == '\t' || c == '\n' || c == '\r' || c == '\x0b' || c == '\x0c'

/-- Case-insensitive match of the (uppercase) pattern `k` at the head of `l`;
returns the remainder on success.  Mirrors matching a literal keyword under
`re.IGNORECASE`. -/
def eatCI : List Char → List Char → Option (List Char)
  | [], l => some l
  | _ :: _, [] => none
  | k :: ks, c :: cs => if c.toUpper == k then eatCI ks cs else none

/-- Word boundary `\b` test in front of the rest of the input: holds when the
input is exhausted or the next character is not a word character. -/
def noWordAhead : List Char → Bool
  | [] => true
  | c :: _ => !isWordChar c

/-- Keyword match with a trailing word boundary: `keyword\b` at the head. -/
def kwAt (k : List Char) (l : List Char) : Bool :=
  match eatCI k l with
  | some rest => noWordAhead rest
  | none => false

/-- Scanner for `re.search`: tries the matcher `m` at every position whose
preceding character is not a word character (the leading `\b`), tracking the
previous character. -/
def scanBool (m : List Char → Bool) : Bool → List Char → Bool
  | _, [] => false
  | prevW, c :: rest => (!prevW && m (c :: rest)) || scanBool m (isWordChar c) rest

/-- Scanner for `re.finditer`: collects the captures of matcher `m` at every
position with a word boundary in front, resuming after the end of each match
(non-overlapping matches); `m` consumes at least one character and ends every
match on a word character. -/
def scanMatches {β : Type} (m : List Char → Option (β × List Char)) :
    Nat → Bool → List Char → List β
  | 0, _, _ => []
  | _ + 1, _, [] => []
  | fuel + 1, prevW, c :: rest =>
    if prevW then scanMatches m fuel (isWordChar c) rest
    else
      match m (c :: rest) with
      | some (x, rest2) => x :: scanMatches m fuel true rest2
      | none => scanMatches m fuel (isWordChar c) rest

/-- Denylist of `DDL_DML_PATTERN` in the source. -/
def DDL_KEYWORDS : List (List Char) :=
  ["DROP".data, "DELETE".data, "UPDATE".data, "INSERT".data, "ALTER".data,
   "CREATE".data, "TRUNCATE".data, "ATTACH".data, "PRAGMA".data, "VACUUM".data]

/-- Search of `DDL_DML_PATTERN`: some denylisted keyword occurs as a whole
word (case-insensitive) somewhere in the text. -/
def ddlSearch (l : List Char) : Bool :=
  scanBool (fun t => DDL_KEYWORDS.any (fun k => kwAt k t)) false l

/-- Embedding of `is_select`: `re.match(r"^\s*SELECT\b", sql, re.IGNORECASE)`. -/
def is_selectL (l : List Char) : Bool :=
  kwAt "SELECT".data (l.dropWhile isSpaceChar)

/-- String form of `is_select` from the source. -/
def is_select (s : String) : Bool := is_selectL s.data

/-- Match of `LIMIT\s+\d+\b` at the head of the input (the leading `\b` is
handled by `scanBool`). -/
def limitAt (l : List Char) : Bool :=
  match eatCI "LIMIT".data l with
  | none => false
  | some r =>
    !(r.takeWhile isSpaceChar).isEmpty &&
      (!((r.dropWhile isSpaceChar).takeWhile Char.isDigit).isEmpty &&
        noWordAhead ((r.dropWhile isSpaceChar).dropWhile Char.isDigit))

/-- Embedding of `has_limit`: `re.search(r"\bLIMIT\s+\d+\b", sql, re.IGNORECASE)`. -/
def has_limitL (l : List Char) : Bool := scanBool limitAt false l

/-- String form of `has_limit` from the source. -/
def has_limit (s : String) : Bool := has_limitL s.data

/-- The `AGG_FUNCS` set of the source. -/
def AGG_FUNCS : List (List Char) :=
  ["COUNT".data, "SUM".data, "AVG".data, "MIN".data, "MAX".data]

/-- Plain (case-sensitive) match of `needle` at the head of `hay`. -/
def startsWithList : List Char → List Char → Bool
  | [], _ => true
  | _ :: _, [] => false
  | n :: ns, c :: cs => n == c && startsWithList ns cs

/-- Substring containment, the semantics of Python `needle in hay`. -/
def containsSub (needle : List Char) : List Char → Bool
  | [] => needle.isEmpty
  | c :: rest => startsWithList needle (c :: rest) || containsSub needle rest

/-- Embedding of `is_aggregate`: `any(func in sql.upper() for func in AGG_FUNCS)` —
substring containment in the upper-cased text, not a whole-word search. -/
def is_aggregateL (l : List Char) : Bool :=
  AGG_FUNCS.any (fun f => containsSub f (l.map Char.toUpper))

/-- String form of `is_aggregate` from the source. -/
def is_aggregate (s : String) : Bool := is_aggregateL s.data

/-- Match of `KW\s+([A-Za-z_][A-Za-z0-9_]*)` at the head (used for the
`FROM`/`JOIN` table patterns); returns the captured identifier and the
remainder after the match. -/
def kwIdentAt (k : List Char) (l : List Char) : Option (List Char × List Char) :=
  match eatCI k l with
  | none => none
  | some r =>
    if (r.takeWhile isSpaceChar).isEmpty then none
    else
      match r.dropWhile isSpaceChar with
      | [] => none
      | c :: rest =>
        if isIdentStart c then
          some (c :: rest.takeWhile isWordChar, rest.dropWhile isWordChar)
        else none

/-- All captures of `TABLE_FROM_PATTERN` (`\bFROM\s+([A-Za-z_][A-Za-z0-9_]*)`). -/
def fromMatches (l : List Char) : List (List Char) :=
  scanMatches (kwIdentAt "FROM".data) l.length false l

/-- All captures of `TABLE_JOIN_PATTERN` (`\bJOIN\s+([A-Za-z_][A-Za-z0-9_]*)`). -/
def joinMatches (l : List Char) : List (List Char) :=
  scanMatches (kwIdentAt "JOIN".data) l.length false l

/-- The allowed table name, `TABLE_NAME = ALLOWED_TABLE.lower()`. -/
def TABLE_NAME : List Char := "transactions".data

/-- The allowed columns of the source, lower-cased (`ALLOWED_COLS_LC`). -/
def ALLOWED_COLS_LC : List (List Char) :=
  ["id".data, "ts".data, "amount".data, "ccy".data, "counterparty".data, "book".data]

/-- Embedding of `only_allowed_tables`: every `FROM`/`JOIN` capture lower-cases
to the allowed table name and at least one `FROM` capture exists. -/
def only_allowed_tables (l : List Char) : Bool :=
  (fromMatches l).all (fun t => t.map Char.toLower == TABLE_NAME) &&
    ((joinMatches l).all (fun t => t.map Char.toLower == TABLE_NAME) &&
      !(fromMatches l).isEmpty)

/-- Match of `DOT_COL_PATTERN` (`\b([A-Za-z_]\w*)\.([A-Za-z_]\w*)`) at the head;
returns the two captured identifiers and the remainder. -/
def dotColAt (l : List Char) : Option ((List Char × List Char) × List Char) :=
  match l with
  | [] => none
  | c :: rest =>
    if isIdentStart c then
      match rest.dropWhile isWordChar with
      | '.' :: c2 :: rest2 =>
        if isIdentStart c2 then
          some ((c :: rest.takeWhile isWordChar, c2 :: rest2.takeWhile isWordChar),
            rest2.dropWhile isWordChar)
        else none
      | _ => none
    else none

/-- All captures of `DOT_COL_PATTERN`. -/
def dotMatches (l : List Char) : List (List Char × List Char) :=
  scanMatches dotColAt l.length false l

/-- Embedding of `dot_columns_are_allowed`: every `table.column` occurrence has
the allowed table and an allowed column (case-insensitive). -/
def dot_columns_are_allowed (l : List Char) : Bool :=
  (dotMatches l).all fun tc =>
    tc.1.map Char.toLower == TABLE_NAME && ALLOWED_COLS_LC.contains (tc.2.map Char.toLower)

/-- Removal of trailing characters satisfying `p`, the `str.rstrip` semantics. -/
def rdropWhileL (p : Char → Bool) (l : List Char) : List Char :=
  (l.reverse.dropWhile p).reverse

/-- Python `str.strip()`: whitespace removed from both ends. -/
def stripL (l : List Char) : List Char :=
  rdropWhileL isSpaceChar (l.dropWhile isSpaceChar)

/-- Python `str.rstrip(";")`: trailing semicolons removed. -/
def rstripSemiL (l : List Char) : List Char :=
  rdropWhileL (fun c => c == ';') l

/-- The normalisation `sql.strip().rstrip(";") + ";"` at the top of
`sanitize_sql`. -/
def sqlCleanL (l : List Char) : List Char := rstripSemiL (stripL l) ++ [';']

/-- Embedding of `add_default_limit` on character lists. -/
def add_default_limitL (l : List Char) (default_limit : Nat) : List Char :=
  if !has_limitL l && !is_aggregateL l then
    rstripSemiL l ++ " LIMIT ".data ++ Nat.toDigits 10 default_limit ++ ";".data
  else l

/-- Embedding of `add_default_limit` from the source (`default_limit = 100`). -/
def add_default_limit (sql : String) (default_limit : Nat := 100) : String :=
  String.mk (add_default_limitL sql.data default_limit)

/-- Embedding of `sanitize_sql`: the four validation gates in source order on
the normalised text, returning `(ok, final-or-message)`. -/
def sanitize_sql (sql : String) : Bool × String :=
  let sql_clean := sqlCleanL sql.data
  if !is_selectL sql_clean then
    (false, "Only SELECT queries are allowed.")
  else if ddlSearch sql_clean then
    (false, "Destructive or unsafe SQL detected (DDL/DML not allowed).")
  else if !only_allowed_tables sql_clean then
    (false, "Query references unknown or disallowed tables.")
  else if !dot_columns_are_allowed sql_clean then
    (false, "Query references unknown columns via dot notation.")
  else
    (true, String.mk (add_default_limitL sql_clean 100))

/-- Embedding of `execute_sql`: the engine result (the dataframe returned by
`pd.read_sql_query`, modelled as the list of its rows) is truncated to the
first `limit_rows` rows when the engine returned more. -/
def execute_sql {α : Type} (rows : List α) (limit_rows : Nat := 100) : List α :=
  if rows.length > limit_rows then rows.take limit_rows else rows

/-- Embedding of `nl2sql_run`.  The external effects are parameters: `dbExists`
models `os.path.exists(db_path)`, `llmResult` the outcome of `llm_sql` (an
exception or the raw SQL text), and `engine` the outcome of
`pd.read_sql_query` on the final SQL (an exception or the engine rows, which
`execute_sql` then caps).  Returns `(generated_sql, rows, error_message)`. -/
def nl2sql_run {α : Type} (dbExists : Bool) (llmResult : Except String String)
    (engine : String → Except String (List α)) (dbPath : String) :
    Option String × Option (List α) × Option String :=
  if !dbExists then
    (none, none,
      some ("Database not found at " ++ dbPath ++ ". Run data/make_transactions_db.py first."))
  else
    match llmResult with
    | Except.error e => (none, none, some ("LLM error: " ++ e))
    | Except.ok raw_sql =>
      match sanitize_sql raw_sql with
      | (false, msg) => (some raw_sql, none, some ("Blocked query: " ++ msg))
      | (true, safe) =>
        match engine safe with
        | Except.ok rows => (some safe, some (execute_sql rows 100), none)
        | Except.error e => (some safe, none, some ("SQL execution error: " ++ e))

/-- The hypothesis of the claim for the forbidden-keyword gate, stated on the raw
candidate: some denylisted keyword occurs in the text as a whole word, in any
casing (each character is the keyword letter or its lowercase form, which is
exactly what `re.IGNORECASE` accepts for these ASCII keywords), with no word
character directly before or after the occurrence. -/
def ContainsKw (l : List Char) : Prop :=
  ∃ pre kw post kwU, kwU ∈ DDL_KEYWORDS ∧ l = pre ++ (kw ++ post) ∧
    kw.map Char.toUpper = kwU ∧
    (∀ c, pre.getLast? = some c → isWordChar c = false) ∧
    (∀ c, post.head? = some c → isWordChar c = false)

/-- The statement shape required by the spec for the first gate: optional
leading whitespace, then the keyword `SELECT` in any casing, then a word
boundary. -/
def IsSelectSpec (l : List Char) : Prop :=
  ∃ ws kw rest, l = ws ++ (kw ++ rest) ∧ (∀ c ∈ ws, isSpaceChar c = true) ∧
    kw.map Char.toUpper = "SELECT".data ∧ noWordAhead rest = true

/-- Modelled from the spec wording of the rewriter (claim C3): aggregate
detection by presence of `COUNT, SUM, AVG, MIN, MAX` as whole words
(case-insensitive).  The source instead uses substring containment
(`is_aggregate`); this definition exists to compare the two. -/
def is_aggregate_wholeword (l : List Char) : Bool :=
  scanBool (fun t => AGG_FUNCS.any (fun k => kwAt k t)) false l

/-! Character-class helper lemmas. -/

theorem isSpaceChar_cases {c : Char} (h : isSpaceChar c = true) :
    c = ' ' ∨ c = '\t' ∨ c = '\n' ∨ c = '\r' ∨ c = '\x0b' ∨ c = '\x0c' := by
  have h2 := h
  simp only [isSpaceChar, Bool.or_eq_true, beq_iff_eq] at h2
  tauto

theorem isLower_word (c : Char) (h : c.isLower = true) : isWordChar c = true := by
  simp [isWordChar, Char.isAlpha, h]

theorem isUpper_word (c : Char) (h : c.isUpper = true) : isWordChar c = true := by
  simp [isWordChar, Char.isAlpha, h]

theorem isLower_not_space (c : Char) (h : c.isLower = true) : isSpaceChar c = false := by
  cases hsp : isSpaceChar c
  · rfl
  · rcases isSpaceChar_cases hsp with rfl | rfl | rfl | rfl | rfl | rfl <;>
      exact absurd h (by decide)

theorem isUpper_not_space (c : Char) (h : c.isUpper = true) : isSpaceChar c = false := by
  cases hsp : isSpaceChar c
  · rfl
  · rcases isSpaceChar_cases hsp with rfl | rfl | rfl | rfl | rfl | rfl <;>
      exact absurd h (by decide)

theorem isLower_ne_semi (c : Char) (h : c.isLower = true) : (c == ';') = false := by
  cases hb : c == ';'
  · rfl
  · obtain rfl : c = ';' := eq_of_beq hb
    exact absurd h (by decide)

theorem isUpper_ne_semi (c : Char) (h : c.isUpper = true) : (c == ';') = false := by
  cases hb : c == ';'
  · rfl
  · obtain rfl : c = ';' := eq_of_beq hb
    exact absurd h (by decide)

theorem isDigit_not_space (c : Char) (h : c.isDigit = true) : isSpaceChar c = false := by
  cases hsp : isSpaceChar c
  · rfl
  · rcases isSpaceChar_cases hsp with rfl | rfl | rfl | rfl | rfl | rfl <;>
      exact absurd h (by decide)

theorem toUpper_eq_self (c : Char) (h : c.isLower = false) : c.toUpper = c := by
  unfold Char.toUpper
  simp only
  rw [if_neg]
  intro hcond
  rw [Bool.eq_false_iff] at h
  apply h
  simp only [Char.isLower, Bool.and_eq_true, decide_eq_true_eq]
  exact ⟨hcond.1, hcond.2⟩

theorem upper_props (c u : Char) (hcu : c.toUpper = u) (hu : u.isUpper = true) :
    isWordChar c = true ∧ isSpaceChar c = false ∧ (c == ';') = false := by
  by_cases hl : c.isLower = true
  · exact ⟨isLower_word _ hl, isLower_not_space _ hl, isLower_ne_semi _ hl⟩
  · have hc : c = u := by
      rw [← hcu, toUpper_eq_self c (Bool.eq_false_iff.mpr hl)]
    subst hc
    exact ⟨isUpper_word _ hu, isUpper_not_space _ hu, isUpper_ne_semi _ hu⟩

/-! List scanning helper lemmas. -/

theorem dropWhile_append_all {p : Char → Bool} :
    ∀ {a : List Char} (b : List Char), (∀ c ∈ a, p c = true) →
      (a ++ b).dropWhile p = b.dropWhile p
  | [], _, _ => rfl
  | c :: a, b, h => by
    have hc : p c = true := h c (List.mem_cons_self c a)
    simp only [List.cons_append, List.dropWhile_cons, hc, if_true]
    exact dropWhile_append_all b (fun x hx => h x (List.mem_cons_of_mem c hx))

theorem dropWhile_append_rest {p : Char → Bool} :
    ∀ {a : List Char} (b : List Char), a.dropWhile p ≠ [] →
      (a ++ b).dropWhile p = a.dropWhile p ++ b
  | [], _, h => absurd rfl h
  | c :: a, b, h => by
    cases hc : p c with
    | true =>
      have ha : a.dropWhile p ≠ [] := by
        simpa [List.dropWhile_cons, hc] using h
      simp only [List.cons_append, List.dropWhile_cons, hc, if_true]
      exact dropWhile_append_rest b ha
    | false =>
      simp [List.dropWhile_cons, hc]

theorem takeWhile_append_all {p : Char → Bool} :
    ∀ {a : List Char} (b : List Char), (∀ c ∈ a, p c = true) →
      (a ++ b).takeWhile p = a ++ b.takeWhile p
  | [], _, _ => rfl
  | c :: a, b, h => by
    have hc : p c = true := h c (List.mem_cons_self c a)
    simp only [List.cons_append, List.takeWhile_cons, hc, if_true, List.cons.injEq, true_and]
    exact takeWhile_append_all b (fun x hx => h x (List.mem_cons_of_mem c hx))

theorem takeWhile_all {p : Char → Bool} :
    ∀ {a : List Char}, ∀ c ∈ a.takeWhile p, p c = true
  | [], c, h => absurd h (List.not_mem_nil c)
  | x :: a, c, h => by
    cases hx : p x with
    | true =>
      rw [List.takeWhile_cons, if_pos hx] at h
      rcases List.mem_cons.mp h with rfl | h2
      · exact hx
      · exact takeWhile_all c h2
    | false =>
      rw [List.takeWhile_cons, if_neg (by simp [hx])] at h
      exact absurd h (List.not_mem_nil c)

theorem mem_dropWhile {p : Char → Bool} :
    ∀ {a : List Char}, ∀ c ∈ a.dropWhile p, c ∈ a
  | [], c, h => h
  | x :: a, c, h => by
    cases hx : p x with
    | true =>
      rw [List.dropWhile_cons, if_pos hx] at h
      exact List.mem_cons_of_mem x (mem_dropWhile c h)
    | false =>
      rw [List.dropWhile_cons, if_neg (by simp [hx])] at h
      exact h

theorem dropWhile_getLast {p : Char → Bool} :
    ∀ {a : List Char}, a.dropWhile p ≠ [] → (a.dropWhile p).getLast? = a.getLast?
  | [], h => absurd rfl h
  | x :: a, h => by
    cases hx : p x with
    | true =>
      rw [List.dropWhile_cons, if_pos hx] at h ⊢
      have ha : a ≠ [] := by
        intro hnil
        subst hnil
        exact h rfl
      rw [dropWhile_getLast h]
      obtain ⟨y, t, rfl⟩ := List.exists_cons_of_ne_nil ha
      rw [List.getLast?_cons_cons]
    | false =>
      rw [List.dropWhile_cons, if_neg (by simp [hx])]

theorem dropWhile_head_false {p : Char → Bool} :
    ∀ {a : List Char} {c : Char} {t : List Char}, a.dropWhile p = c :: t → p c = false
  | [], _, _, h => by cases h
  | x :: a, c, t, h => by
    cases hx : p x with
    | true =>
      rw [List.dropWhile_cons, if_pos hx] at h
      exact dropWhile_head_false h
    | false =>
      rw [List.dropWhile_cons, if_neg (by simp [hx])] at h
      cases h
      exact hx

theorem mem_rdropWhileL {p : Char → Bool} {a : List Char} :
    ∀ c ∈ rdropWhileL p a, c ∈ a := by
  intro c h
  unfold rdropWhileL at h
  rw [List.mem_reverse] at h
  exact List.mem_reverse.mp (mem_dropWhile c h)

theorem rdropWhileL_append_all {p : Char → Bool} {a b : List Char}
    (h : ∀ c ∈ b, p c = true) : rdropWhileL p (a ++ b) = rdropWhileL p a := by
  unfold rdropWhileL
  rw [List.reverse_append, dropWhile_append_all _ (fun c hc => h c (List.mem_reverse.mp hc))]

theorem rdropWhileL_append_rest {p : Char → Bool} {a b : List Char}
    (h : rdropWhileL p b ≠ []) : rdropWhileL p (a ++ b) = a ++ rdropWhileL p b := by
  have hb : b.reverse.dropWhile p ≠ [] := by
    intro hnil
    exact h (by simp [rdropWhileL, hnil])
  unfold rdropWhileL
  rw [List.reverse_append, dropWhile_append_rest _ hb, List.reverse_append,
    List.reverse_reverse]

theorem rdropWhileL_head {p : Char → Bool} {b : List Char}
    (h : rdropWhileL p b ≠ []) : (rdropWhileL p b).head? = b.head? := by
  have hb : b.reverse.dropWhile p ≠ [] := by
    intro hnil
    exact h (by simp [rdropWhileL, hnil])
  unfold rdropWhileL
  rw [List.head?_reverse, dropWhile_getLast hb, List.getLast?_reverse]

theorem rdropWhileL_eq_nil {p : Char → Bool} {b : List Char}
    (h : rdropWhileL p b = []) : ∀ c ∈ b, p c = true := by
  intro c hc
  have : b.reverse.dropWhile p = [] := by
    have := congrArg List.reverse h
    simpa [rdropWhileL] using this
  exact List.dropWhile_eq_nil_iff.mp this c (List.mem_reverse.mpr hc)

theorem rdropWhileL_keep {p : Char → Bool} {kw : List Char}
    (hne : kw ≠ []) (h : ∀ c ∈ kw, p c = false) : rdropWhileL p kw = kw := by
  obtain ⟨c, t, hrev⟩ := List.exists_cons_of_ne_nil (fun hnil => hne (by
    simpa using congrArg List.reverse hnil) : kw.reverse ≠ [])
  have hc : p c = false := h c (by
    rw [← List.mem_reverse, hrev]
    exact List.mem_cons_self c t)
  unfold rdropWhileL
  rw [hrev, List.dropWhile_cons, if_neg (by simp [hc]), ← hrev, List.reverse_reverse]

/-! Lemmas about the case-insensitive keyword matcher. -/

theorem eatCI_complete :
    ∀ {kw k : List Char} (r : List Char), kw.map Char.toUpper = k →
      eatCI k (kw ++ r) = some r
  | [], k, r, h => by
    subst_vars
    rfl
  | c :: kw, k, r, h => by
    subst h
    simp only [List.map_cons, List.cons_append, eatCI, beq_self_eq_true, if_true]
    exact eatCI_complete r rfl

theorem eatCI_some :
    ∀ {k l r : List Char}, eatCI k l = some r →
      ∃ kw, l = kw ++ r ∧ kw.map Char.toUpper = k
  | [], l, r, h => by
    refine ⟨[], ?_, rfl⟩
    have h2 : r = l := by simpa [eatCI] using h.symm
    exact h2.symm
  | a :: k, [], r, h => by cases h
  | a :: k, c :: l, r, h => by
    rw [eatCI] at h
    by_cases hc : (c.toUpper == a) = true
    · rw [if_pos hc] at h
      obtain ⟨kw, rfl, hmap⟩ := eatCI_some h
      exact ⟨c :: kw, rfl, by simp [hmap, eq_of_beq hc]⟩
    · rw [if_neg hc] at h
      cases h

theorem scanBool_of_match (m : List Char → Bool) :
    ∀ (pre : List Char) (suffix : List Char) (prevW : Bool), suffix ≠ [] →
      m suffix = true → (pre = [] → prevW = false) →
      (∀ c, pre.getLast? = some c → isWordChar c = false) →
      scanBool m prevW (pre ++ suffix) = true
  | [], suffix, prevW, hne, hm, hpw, _ => by
    obtain ⟨c, t, rfl⟩ := List.exists_cons_of_ne_nil hne
    rw [hpw rfl]
    simp [scanBool, hm]
  | a :: pre, suffix, prevW, hne, hm, _, hlast => by
    have step : scanBool m (isWordChar a) (pre ++ suffix) = true := by
      refine scanBool_of_match m pre suffix (isWordChar a) hne hm ?_ ?_
      · intro hnil
        subst hnil
        exact hlast a rfl
      · intro c hc
        apply hlast
        cases pre with
        | nil => cases hc
        | cons b t => rw [List.getLast?_cons_cons]; exact hc
    rw [List.cons_append, scanBool, step, Bool.or_true]

/-! Lemmas carrying a whole-word keyword occurrence through the
normalisation `sql.strip().rstrip(";") + ";"`. -/

theorem ddl_keywords_upper : ∀ k ∈ DDL_KEYWORDS, k ≠ [] ∧ ∀ u ∈ k, u.isUpper = true := by
  decide

theorem kw_char_props {kw kwU : List Char} (hkwU : kwU ∈ DDL_KEYWORDS)
    (hmap : kw.map Char.toUpper = kwU) :
    ∀ c ∈ kw, isWordChar c = true ∧ isSpaceChar c = false ∧ (c == ';') = false := by
  intro c hc
  have hu : c.toUpper ∈ kwU := by
    rw [← hmap]
    exact List.mem_map_of_mem Char.toUpper hc
  exact upper_props c c.toUpper rfl ((ddl_keywords_upper kwU hkwU).2 _ hu)

theorem kw_ne_nil {kw kwU : List Char} (hkwU : kwU ∈ DDL_KEYWORDS)
    (hmap : kw.map Char.toUpper = kwU) : kw ≠ [] := by
  intro hnil
  subst hnil
  exact (ddl_keywords_upper kwU hkwU).1 hmap.symm

theorem dropWhile_mid (pre kw post : List Char) (hkw : kw ≠ [])
    (hchars : ∀ c ∈ kw, isSpaceChar c = false)
    (hpre : ∀ c, pre.getLast? = some c → isWordChar c = false) :
    ∃ pre1, (pre ++ (kw ++ post)).dropWhile isSpaceChar = pre1 ++ (kw ++ post) ∧
      (∀ c, pre1.getLast? = some c → isWordChar c = false) := by
  by_cases hp : pre.dropWhile isSpaceChar = []
  · refine ⟨[], ?_, fun c hc => by cases hc⟩
    rw [dropWhile_append_all _ (List.dropWhile_eq_nil_iff.mp hp)]
    obtain ⟨c, t, rfl⟩ := List.exists_cons_of_ne_nil hkw
    rw [List.cons_append, List.dropWhile_cons,
      if_neg (by simp [hchars c (List.mem_cons_self c t)]), List.nil_append]
  · refine ⟨pre.dropWhile isSpaceChar, dropWhile_append_rest _ hp, ?_⟩
    intro c hc
    rw [dropWhile_getLast hp] at hc
    exact hpre c hc

theorem rdrop_mid {p : Char → Bool} (pre1 kw post1 : List Char) (hkw : kw ≠ [])
    (hchars : ∀ c ∈ kw, p c = false)
    (hpost : ∀ c, post1.head? = some c → isWordChar c = false) :
    ∃ post2, rdropWhileL p (pre1 ++ (kw ++ post1)) = pre1 ++ (kw ++ post2) ∧
      (∀ c, post2.head? = some c → isWordChar c = false) := by
  by_cases h2 : rdropWhileL p post1 = []
  · refine ⟨[], ?_, fun c hc => by cases hc⟩
    rw [← List.append_assoc, rdropWhileL_append_all (rdropWhileL_eq_nil h2),
      rdropWhileL_append_rest (p := p) (a := pre1) (b := kw)
        (by rw [rdropWhileL_keep hkw hchars]; exact hkw),
      rdropWhileL_keep hkw hchars, List.append_nil]
  · refine ⟨rdropWhileL p post1, ?_, ?_⟩
    · rw [← List.append_assoc, rdropWhileL_append_rest h2, List.append_assoc]
    · intro c hc
      rw [rdropWhileL_head h2] at hc
      exact hpost c hc

theorem containsKw_sqlClean {l : List Char} (h : ContainsKw l) : ContainsKw (sqlCleanL l) := by
  obtain ⟨pre, kw, post, kwU, hkwU, rfl, hmap, hpre, hpost⟩ := h
  have props := kw_char_props hkwU hmap
  have hkw : kw ≠ [] := kw_ne_nil hkwU hmap
  obtain ⟨pre1, e1, hpre1⟩ :=
    dropWhile_mid pre kw post hkw (fun c hc => (props c hc).2.1) hpre
  obtain ⟨post1, e2, hpost1⟩ :=
    rdrop_mid (p := isSpaceChar) pre1 kw post hkw (fun c hc => (props c hc).2.1) hpost
  obtain ⟨post2, e3, hpost2⟩ :=
    rdrop_mid (p := fun c => c == ';') pre1 kw post1 hkw (fun c hc => (props c hc).2.2) hpost1
  refine ⟨pre1, kw, post2 ++ [';'], kwU, hkwU, ?_, hmap, hpre1, ?_⟩
  · unfold sqlCleanL stripL rstripSemiL
    rw [e1, e2, e3, List.append_assoc, List.append_assoc]
  · intro c hc
    cases post2 with
    | nil =>
      rw [List.nil_append] at hc
      obtain rfl : ';' = c := by simpa using hc
      decide
    | cons b t =>
      rw [List.cons_append] at hc
      obtain rfl : b = c := by simpa using hc
      exact hpost2 _ rfl

theorem containsKw_ddlSearch {l : List Char} (h : ContainsKw l) : ddlSearch l = true := by
  obtain ⟨pre, kw, post, kwU, hkwU, rfl, hmap, hpre, hpost⟩ := h
  unfold ddlSearch
  refine scanBool_of_match _ pre (kw ++ post) false ?_ ?_ (fun _ => rfl) hpre
  · intro hnil
    exact kw_ne_nil hkwU hmap (List.append_eq_nil.mp hnil).1
  · refine List.any_eq_true.mpr ⟨kwU, hkwU, ?_⟩
    unfold kwAt
    rw [eatCI_complete post hmap]
    cases post with
    | nil => rfl
    | cons c t =>
      have := hpost c rfl
      simp [noWordAhead, this]

/-- C1 (amended): for every candidate string that contains a denylisted
keyword (`DROP, DELETE, UPDATE, INSERT, ALTER, CREATE, TRUNCATE, ATTACH,
PRAGMA, VACUUM`) as a whole word, in any case and at any position, and that
passes the statement-shape gate (the normalised text starts with `SELECT`),
`sanitize_sql` rejects with the DDL/DML message.  The extra statement-shape
hypothesis is forced by the gate order of the source (see the
counterexample). -/
theorem keyword_gate_rejects_select_with_keyword (s : String)
    (hkw : ContainsKw s.data) (hsel : is_selectL (sqlCleanL s.data) = true) :
    sanitize_sql s = (false, "Destructive or unsafe SQL detected (DDL/DML not allowed).") := by
  have hddl : ddlSearch (sqlCleanL s.data) = true :=
    containsKw_ddlSearch (containsKw_sqlClean hkw)
  simp [sanitize_sql, hsel, hddl]

/-- C1 counterexample: the candidate `"DROP TABLE transactions"` contains the
denylisted keyword `DROP` as a whole word, yet `sanitize_sql` returns the
`NotASelect` rejection ("Only SELECT queries are allowed."), not the
`UnsafeKeyword` one — the statement-shape gate runs first, refuting the
claimed "no precondition that the string be a SELECT statement". -/
theorem keyword_gate_not_first_counterexample :
    ContainsKw ("DROP TABLE transactions").data ∧
    sanitize_sql "DROP TABLE transactions" = (false, "Only SELECT queries are allowed.") ∧
    sanitize_sql "DROP TABLE transactions" ≠
      (false, "Destructive or unsafe SQL detected (DDL/DML not allowed).") := by
  refine ⟨⟨[], "DROP".data, " TABLE transactions".data, "DROP".data,
    by decide, by decide, by decide, ?_, ?_⟩, by decide, by decide⟩
  · intro c hc
    cases hc
  · intro c hc
    obtain rfl : ' ' = c := Option.some.inj hc
    decide

/-- C1 witness: the multi-statement smuggling scenario, accepted by
the statement-shape gate and rejected by the keyword gate. -/
theorem keyword_gate_rejects_select_with_keyword_witness :
    sanitize_sql "SELECT * FROM transactions; DROP TABLE transactions" =
      (false, "Destructive or unsafe SQL detected (DDL/DML not allowed).") := by
  refine keyword_gate_rejects_select_with_keyword _
    ⟨"SELECT * FROM transactions; ".data, "DROP".data, " TABLE transactions".data,
      "DROP".data, by decide, by decide, by decide, ?_, ?_⟩ (by decide)
  · intro c hc
    rw [show ("SELECT * FROM transactions; ").data.getLast? = some ' ' by decide] at hc
    obtain rfl : ' ' = c := Option.some.inj hc
    decide
  · intro c hc
    obtain rfl : ' ' = c := Option.some.inj hc
    decide

/-- C2: `execute_sql` returns at most `limit_rows` rows whatever the engine
returned, and exactly `limit_rows` rows whenever the engine returned at least
that many. -/
theorem execute_sql_row_cap {α : Type} (rows : List α) (limit_rows : Nat) :
    (execute_sql rows limit_rows).length ≤ limit_rows ∧
      (limit_rows ≤ rows.length → (execute_sql rows limit_rows).length = limit_rows) := by
  unfold execute_sql
  split
  · rename_i h
    simp only [List.length_take]
    omega
  · rename_i h
    simp only [Nat.not_lt] at h
    exact ⟨h, fun h2 => Nat.le_antisymm h h2⟩

/-- C2 witness: a store matching 500 rows under a cap of 100 yields exactly
100 rows. -/
theorem execute_sql_row_cap_witness :
    100 ≤ (List.range 500).length ∧ (execute_sql (List.range 500) 100).length = 100 :=
  ⟨by simp, (execute_sql_row_cap (List.range 500) 100).2 (by simp)⟩

/-- C9: truncation in `execute_sql` is an order-preserving prefix of the
engine result — the output followed by some remainder is the engine result,
its length is `min` of the engine length and the cap, and when the engine
returns at most the cap the result is returned unmodified. -/
theorem execute_sql_order_preserving {α : Type} (rows : List α) (limit_rows : Nat) :
    (∃ rest, rows = execute_sql rows limit_rows ++ rest) ∧
      (execute_sql rows limit_rows).length = min rows.length limit_rows ∧
      (rows.length ≤ limit_rows → execute_sql rows limit_rows = rows) := by
  unfold execute_sql
  split
  · rename_i h
    refine ⟨⟨rows.drop limit_rows, (List.take_append_drop limit_rows rows).symm⟩, ?_, ?_⟩
    · simp only [List.length_take]
      omega
    · intro h2
      omega
  · rename_i h
    simp only [Nat.not_lt] at h
    exact ⟨⟨[], by simp⟩, by omega, fun _ => rfl⟩

/-- C9 witness: an engine result within the cap is passed through unchanged. -/
theorem execute_sql_order_preserving_witness :
    ([0, 1] : List Nat).length ≤ 5 ∧ execute_sql ([0, 1] : List Nat) 5 = [0, 1] :=
  ⟨by decide, (execute_sql_order_preserving ([0, 1] : List Nat) 5).2.2 (by decide)⟩

/-- C4: every outcome of `nl2sql_run` has exactly one of rows/error set, and
when generation failed or validation rejected the candidate, the outcome does
not depend on the execution engine at all (the statement is never executed). -/
theorem nl2sql_run_outcome_exclusive {α : Type} (dbExists : Bool)
    (llmResult : Except String String) (engine engine2 : String → Except String (List α))
    (dbPath : String) :
    (((nl2sql_run dbExists llmResult engine dbPath).2.1.isSome = true ∧
        (nl2sql_run dbExists llmResult engine dbPath).2.2 = none) ∨
      ((nl2sql_run dbExists llmResult engine dbPath).2.1 = none ∧
        (nl2sql_run dbExists llmResult engine dbPath).2.2.isSome = true)) ∧
    ((match llmResult with
      | Except.ok sql => (sanitize_sql sql).1 = false
      | Except.error _ => True) →
      nl2sql_run dbExists llmResult engine dbPath =
        nl2sql_run dbExists llmResult engine2 dbPath) := by
  cases dbExists with
  | false => exact ⟨Or.inr ⟨rfl, rfl⟩, fun _ => rfl⟩
  | true =>
    cases llmResult with
    | error e => exact ⟨Or.inr ⟨rfl, rfl⟩, fun _ => rfl⟩
    | ok sql =>
      constructor
      · cases hs : sanitize_sql sql with
        | mk ok msg =>
          cases ok with
          | false => simp [nl2sql_run, hs]
          | true =>
            cases he : engine msg with
            | ok rows => simp [nl2sql_run, hs, he]
            | error e => simp [nl2sql_run, hs, he]
      · intro hrej
        cases hs : sanitize_sql sql with
        | mk ok msg =>
          have hok : ok = false := by
            have h2 : (sanitize_sql sql).1 = false := hrej
            rw [hs] at h2
            exact h2
          subst hok
          simp [nl2sql_run, hs]

/-- C4 witness: a rejected candidate produces identical outcomes under two
different engines — it is never executed. -/
theorem nl2sql_run_outcome_exclusive_witness :
    (sanitize_sql "DROP TABLE transactions").1 = false ∧
      nl2sql_run true (Except.ok "DROP TABLE transactions")
          (fun _ => Except.ok ([0] : List Nat)) "db" =
        nl2sql_run true (Except.ok "DROP TABLE transactions")
          (fun _ => Except.ok ([] : List Nat)) "db" :=
  ⟨by decide,
    (nl2sql_run_outcome_exclusive true (Except.ok "DROP TABLE transactions")
      (fun _ => Except.ok ([0] : List Nat)) (fun _ => Except.ok ([] : List Nat)) "db").2
      (by decide)⟩

/-! The statement-shape gate against its specification. -/

theorem select_map_head {kw : List Char} (hmap : kw.map Char.toUpper = "SELECT".data) :
    ∃ c t, kw = c :: t ∧ c.toUpper = 'S' := by
  cases kw with
  | nil => exact absurd hmap (by decide)
  | cons c t =>
    refine ⟨c, t, rfl, ?_⟩
    rw [List.map_cons, show "SELECT".data = 'S' :: "ELECT".data from rfl] at hmap
    injection hmap with h1 h2

theorem is_selectL_iff (l : List Char) : is_selectL l = true ↔ IsSelectSpec l := by
  constructor
  · intro h
    unfold is_selectL kwAt at h
    cases he : eatCI "SELECT".data (l.dropWhile isSpaceChar) with
    | none => rw [he] at h; cases h
    | some rest =>
      rw [he] at h
      obtain ⟨kw, hsplit, hmap⟩ := eatCI_some he
      refine ⟨l.takeWhile isSpaceChar, kw, rest, ?_, ?_, hmap, h⟩
      · rw [← hsplit, List.takeWhile_append_dropWhile]
      · exact fun c hc => takeWhile_all c hc
  · rintro ⟨ws, kw, rest, rfl, hws, hmap, hbound⟩
    obtain ⟨c, t, rfl, hcS⟩ := select_map_head hmap
    have hcns : isSpaceChar c = false := (upper_props c 'S' hcS (by decide)).2.1
    unfold is_selectL
    rw [dropWhile_append_all _ hws, List.cons_append, List.dropWhile_cons,
      if_neg (by simp [hcns]), ← List.cons_append]
    unfold kwAt
    rw [eatCI_complete rest hmap]
    exact hbound

/-- C5: `sanitize_sql` rejects with the `NotASelect` message exactly when the
normalised text (`strip`, semicolon-normalised) is not a `SELECT` statement —
optional leading whitespace, the keyword `SELECT` in any casing, and a word
boundary after it. -/
theorem select_gate_characterization (s : String) :
    sanitize_sql s = (false, "Only SELECT queries are allowed.") ↔
      ¬ IsSelectSpec (sqlCleanL s.data) := by
  rw [← is_selectL_iff]
  cases hsel : is_selectL (sqlCleanL s.data) with
  | false =>
    have hres : sanitize_sql s = (false, "Only SELECT queries are allowed.") := by
      simp [sanitize_sql, hsel]
    simp [hres]
  | true =>
    refine iff_of_false ?_ (by simp)
    cases hd : ddlSearch (sqlCleanL s.data) <;>
      cases ht : only_allowed_tables (sqlCleanL s.data) <;>
        cases hc : dot_columns_are_allowed (sqlCleanL s.data) <;>
          simp [sanitize_sql, hsel, hd, ht, hc]

/-- C10: the empty candidate, and every candidate made of only whitespace and
semicolons, is rejected by the first gate with the `NotASelect` message. -/
theorem empty_input_not_select (s : String)
    (h : ∀ c ∈ s.data, isSpaceChar c = true ∨ c = ';') :
    sanitize_sql s = (false, "Only SELECT queries are allowed.") := by
  have hclean : ∀ c ∈ sqlCleanL s.data, isSpaceChar c = true ∨ c = ';' := by
    intro c hc
    unfold sqlCleanL at hc
    rcases List.mem_append.mp hc with hc | hc
    · have h1 : c ∈ stripL s.data := mem_rdropWhileL c hc
      unfold stripL at h1
      have h2 : c ∈ s.data.dropWhile isSpaceChar := mem_rdropWhileL c h1
      exact h c (mem_dropWhile c h2)
    · right
      simpa using hc
  have hsel : is_selectL (sqlCleanL s.data) = false := by
    cases hb : is_selectL (sqlCleanL s.data)
    · rfl
    · exfalso
      obtain ⟨ws, kw, rest, hsplit, hws, hmap, hbound⟩ := (is_selectL_iff _).mp hb
      obtain ⟨c, t, rfl, hcS⟩ := select_map_head hmap
      have hprops := upper_props c 'S' hcS (by decide)
      have hmem : c ∈ sqlCleanL s.data := by
        rw [hsplit]
        simp
      rcases hclean c hmem with hsp | rfl
      · rw [hprops.2.1] at hsp
        cases hsp
      · exact absurd hcS (by decide)
  simp [sanitize_sql, hsel]

/-- C10 witness: a candidate of only whitespace and semicolons is rejected
with the `NotASelect` message. -/
theorem empty_input_not_select_witness :
    sanitize_sql " ;; " = (false, "Only SELECT queries are allowed.") :=
  empty_input_not_select " ;; " (by decide)

/-- C6: for a candidate that reaches the table gate (statement-shape gate
passed, no denylisted keyword), `sanitize_sql` rejects with the `UnknownTable`
message exactly when `only_allowed_tables` fails on the normalised text, i.e.
unless every identifier captured after `FROM`/`JOIN` lower-cases to
`transactions` and at least one `FROM` capture exists. -/
theorem table_gate_characterization (s : String)
    (hsel : is_selectL (sqlCleanL s.data) = true)
    (hddl : ddlSearch (sqlCleanL s.data) = false) :
    sanitize_sql s = (false, "Query references unknown or disallowed tables.") ↔
      only_allowed_tables (sqlCleanL s.data) = false := by
  cases ht : only_allowed_tables (sqlCleanL s.data) with
  | false =>
    have hres : sanitize_sql s = (false, "Query references unknown or disallowed tables.") := by
      simp [sanitize_sql, hsel, hddl, ht]
    simp [hres]
  | true =>
    refine iff_of_false ?_ (by simp)
    cases hc : dot_columns_are_allowed (sqlCleanL s.data) <;>
      simp [sanitize_sql, hsel, hddl, ht, hc]

/-- C6 witness: the spec scenario `"SELECT t.id FROM other_table t"` is
rejected with the `UnknownTable` message. -/
theorem table_gate_characterization_witness :
    sanitize_sql "SELECT t.id FROM other_table t" =
      (false, "Query references unknown or disallowed tables.") :=
  (table_gate_characterization "SELECT t.id FROM other_table t"
    (by decide) (by decide)).mpr (by decide)

/-- C7: for a candidate that reaches the column gate, `sanitize_sql` rejects
with the `UnknownColumn` message exactly when some `identifier.identifier`
occurrence has a table part other than `transactions` or a column part outside
the allowed set; when every dotted occurrence is allowed the candidate is
accepted — so unqualified column references are never checked against the
allow-list. -/
theorem column_gate_characterization (s : String)
    (hsel : is_selectL (sqlCleanL s.data) = true)
    (hddl : ddlSearch (sqlCleanL s.data) = false)
    (htab : only_allowed_tables (sqlCleanL s.data) = true) :
    (sanitize_sql s = (false, "Query references unknown columns via dot notation.") ↔
      dot_columns_are_allowed (sqlCleanL s.data) = false) ∧
    (dot_columns_are_allowed (sqlCleanL s.data) = true →
      sanitize_sql s = (true, String.mk (add_default_limitL (sqlCleanL s.data) 100))) := by
  constructor
  · cases hc : dot_columns_are_allowed (sqlCleanL s.data) with
    | false =>
      have hres :
          sanitize_sql s = (false, "Query references unknown columns via dot notation.") := by
        simp [sanitize_sql, hsel, hddl, htab, hc]
      simp [hres]
    | true =>
      refine iff_of_false ?_ (by simp)
      simp [sanitize_sql, hsel, hddl, htab, hc]
  · intro hc
    simp [sanitize_sql, hsel, hddl, htab, hc]

/-- C7 witness: the spec scenario `"SELECT transactions.secret FROM
transactions"` is rejected with the `UnknownColumn` message. -/
theorem column_gate_characterization_witness :
    sanitize_sql "SELECT transactions.secret FROM transactions" =
      (false, "Query references unknown columns via dot notation.") :=
  ((column_gate_characterization "SELECT transactions.secret FROM transactions"
    (by decide) (by decide) (by decide)).1).mpr (by decide)

/-! The appended `LIMIT` clause is itself found by `has_limit`. -/

theorem digitChar_isDigit (m : Nat) (h : m < 10) : (Nat.digitChar m).isDigit = true := by
  interval_cases m <;> decide

theorem toDigitsCore_digits :
    ∀ (fuel n : Nat) (ds : List Char), (∀ c ∈ ds, c.isDigit = true) →
      ∀ c ∈ Nat.toDigitsCore 10 fuel n ds, c.isDigit = true := by
  intro fuel
  induction fuel with
  | zero => exact fun n ds h c hc => h c hc
  | succ fuel ih =>
    intro n ds h c hc
    rw [Nat.toDigitsCore] at hc
    have hd : ∀ x ∈ (n % 10).digitChar :: ds, x.isDigit = true := by
      intro x hx
      rcases List.mem_cons.mp hx with rfl | hx2
      · exact digitChar_isDigit _ (Nat.mod_lt n (by norm_num))
      · exact h x hx2
    by_cases hz : n / 10 = 0
    · rw [if_pos hz] at hc
      exact hd c hc
    · rw [if_neg hz] at hc
      exact ih _ _ hd c hc

theorem toDigitsCore_length :
    ∀ (fuel n : Nat) (ds : List Char), ds.length ≤ (Nat.toDigitsCore 10 fuel n ds).length := by
  intro fuel
  induction fuel with
  | zero => exact fun n ds => Nat.le_refl _
  | succ fuel ih =>
    intro n ds
    rw [Nat.toDigitsCore]
    by_cases hz : n / 10 = 0
    · rw [if_pos hz]
      exact Nat.le_succ _
    · rw [if_neg hz]
      exact Nat.le_trans (Nat.le_succ _) (ih (n / 10) ((n % 10).digitChar :: ds))

theorem toDigits_ne_nil (n : Nat) : Nat.toDigits 10 n ≠ [] := by
  unfold Nat.toDigits
  rw [Nat.toDigitsCore]
  by_cases hz : n / 10 = 0
  · rw [if_pos hz]
    exact List.cons_ne_nil _ _
  · rw [if_neg hz]
    intro hnil
    have := toDigitsCore_length n (n / 10) [(n % 10).digitChar]
    rw [hnil] at this
    exact absurd this (by simp)

theorem toDigits_digits (n : Nat) : ∀ c ∈ Nat.toDigits 10 n, c.isDigit = true := by
  unfold Nat.toDigits
  exact toDigitsCore_digits _ _ _ (by simp)

theorem limitAt_eq_of_eat {l r : List Char} (h : eatCI "LIMIT".data l = some r) :
    limitAt l = (!(r.takeWhile isSpaceChar).isEmpty &&
      (!((r.dropWhile isSpaceChar).takeWhile Char.isDigit).isEmpty &&
        noWordAhead ((r.dropWhile isSpaceChar).dropWhile Char.isDigit))) := by
  unfold limitAt
  rw [h]

theorem limitAt_concrete (d : Nat) :
    limitAt ("LIMIT".data ++ (' ' :: (Nat.toDigits 10 d ++ [';']))) = true := by
  rw [limitAt_eq_of_eat
    (eatCI_complete _ (by decide : ("LIMIT".data).map Char.toUpper = "LIMIT".data))]
  obtain ⟨e, ds, hds⟩ := List.exists_cons_of_ne_nil (toDigits_ne_nil d)
  have he : Char.isDigit e = true := toDigits_digits d e (by rw [hds]; exact List.mem_cons_self e ds)
  have hdall : ∀ c ∈ e :: ds, c.isDigit = true := by
    intro c hc
    exact toDigits_digits d c (by rw [hds]; exact hc)
  have hens : isSpaceChar e = false := isDigit_not_space e he
  rw [hds]
  have h1 : (' ' :: ((e :: ds) ++ [';'])).takeWhile isSpaceChar = [' '] := by
    rw [List.takeWhile_cons, if_pos (by decide), List.cons_append, List.takeWhile_cons,
      if_neg (by simp [hens])]
  have h2 : (' ' :: ((e :: ds) ++ [';'])).dropWhile isSpaceChar = (e :: ds) ++ [';'] := by
    rw [List.dropWhile_cons, if_pos (by decide), List.cons_append, List.dropWhile_cons,
      if_neg (by simp [hens])]
  have h3 : ((e :: ds) ++ [';']).takeWhile Char.isDigit = e :: ds := by
    rw [takeWhile_append_all _ hdall, show List.takeWhile Char.isDigit [';'] = [] from rfl,
      List.append_nil]
  have h4 : ((e :: ds) ++ [';']).dropWhile Char.isDigit = [';'] := by
    rw [dropWhile_append_all _ hdall, List.dropWhile_cons, if_neg (by decide)]
  rw [h1, h2, h3, h4]
  simp [noWordAhead, show isWordChar ';' = false from by decide]

theorem has_limitL_append (A : List Char) (d : Nat) :
    has_limitL (A ++ " LIMIT ".data ++ Nat.toDigits 10 d ++ ";".data) = true := by
  have hassoc : A ++ " LIMIT ".data ++ Nat.toDigits 10 d ++ ";".data =
      (A ++ [' ']) ++ ("LIMIT".data ++ (' ' :: (Nat.toDigits 10 d ++ [';']))) := by
    rw [show " LIMIT ".data = [' '] ++ ("LIMIT".data ++ [' ']) from rfl,
      show ";".data = [';'] from rfl]
    simp [List.append_assoc]
  rw [hassoc]
  unfold has_limitL
  refine scanBool_of_match limitAt (A ++ [' ']) _ false ?_ (limitAt_concrete d)
    (fun h => rfl) ?_
  · intro hnil
    simpa using congrArg List.length hnil
  · intro c hc
    rw [List.getLast?_concat] at hc
    obtain rfl : ' ' = c := Option.some.inj hc
    decide

theorem add_default_limitL_of_has (y : List Char) (d : Nat) (h : has_limitL y = true) :
    add_default_limitL y d = y := by
  unfold add_default_limitL
  rw [if_neg (by simp [h])]

theorem add_default_limitL_has (l : List Char) (d : Nat)
    (h1 : has_limitL l = false) (h2 : is_aggregateL l = false) :
    has_limitL (add_default_limitL l d) = true := by
  unfold add_default_limitL
  rw [if_pos (by simp [h1, h2])]
  exact has_limitL_append _ d

theorem add_default_limitL_idem (l : List Char) (d : Nat) :
    add_default_limitL (add_default_limitL l d) d = add_default_limitL l d := by
  by_cases hcond : (!has_limitL l && !is_aggregateL l) = true
  · have hy : add_default_limitL l d =
        rstripSemiL l ++ " LIMIT ".data ++ Nat.toDigits 10 d ++ ";".data := by
      unfold add_default_limitL
      rw [if_pos hcond]
    have hl2 : has_limitL (add_default_limitL l d) = true := by
      rw [hy]
      exact has_limitL_append _ d
    exact add_default_limitL_of_has _ d hl2
  · have hid : add_default_limitL l d = l := by
      unfold add_default_limitL
      rw [if_neg hcond]
    rw [hid]
    exact hid

/-- C8: the rewrite step is idempotent — for every SQL string and every
default limit, rewriting twice equals rewriting once; in particular a
statement already carrying a `LIMIT` clause is left unchanged by the second
pass because the appended clause itself matches `has_limit`. -/
theorem add_default_limit_idempotent (x : String) (d : Nat) :
    add_default_limit (add_default_limit x d) d = add_default_limit x d :=
  congrArg String.mk (add_default_limitL_idem x.data d)

/-- C3 (amended): for statements with no `LIMIT` clause that the aggregate test of
the source misses, the rewriter appends exactly one `LIMIT
<default_limit>` clause (the result then satisfies `has_limit`); for
statements the aggregate test catches, nothing is appended.  The aggregate
test of the source is substring containment of `COUNT, SUM, AVG, MIN, MAX` in
the upper-cased text — not a whole-word search as the claim states (see the
counterexample). -/
theorem add_default_limit_spec (s : String) (d : Nat) :
    (has_limit s = false → is_aggregate s = false →
      add_default_limit s d = String.mk (rstripSemiL s.data) ++ " LIMIT " ++ Nat.repr d ++ ";" ∧
        has_limit (add_default_limit s d) = true) ∧
    (is_aggregate s = true → add_default_limit s d = s) := by
  constructor
  · intro h1 h2
    have h1' : has_limitL s.data = false := h1
    have h2' : is_aggregateL s.data = false := h2
    have hbranch : add_default_limitL s.data d =
        rstripSemiL s.data ++ " LIMIT ".data ++ Nat.toDigits 10 d ++ ";".data := by
      unfold add_default_limitL
      rw [if_pos (by simp [h1', h2'])]
    constructor
    · show String.mk (add_default_limitL s.data d) = _
      rw [hbranch]
      have happ : ∀ a b : String, a ++ b = String.mk (a.data ++ b.data) := fun a b => by
        cases a
        cases b
        rfl
      have hdata : ∀ l : List Char, (String.mk l).data = l := fun _ => rfl
      have hrepr : (Nat.repr d).data = Nat.toDigits 10 d := rfl
      simp only [happ, hdata, hrepr]
    · show has_limitL (add_default_limitL s.data d) = true
      exact add_default_limitL_has s.data d h1' h2'
  · intro h3
    show String.mk (add_default_limitL s.data d) = s
    rw [add_default_limitL, if_neg (by simp [show is_aggregateL s.data = true from h3])]

/-- C3 counterexample: `"SELECT counterparty FROM transactions"` has no
`LIMIT` clause and contains none of `COUNT, SUM, AVG, MIN, MAX` as a whole
word, yet the rewriter appends nothing — the source detects aggregates by
substring containment and `COUNTERPARTY` contains `COUNT`. -/
theorem aggregate_detection_substring_counterexample :
    has_limit "SELECT counterparty FROM transactions" = false ∧
      is_aggregate_wholeword ("SELECT counterparty FROM transactions").data = false ∧
      add_default_limit "SELECT counterparty FROM transactions" =
        "SELECT counterparty FROM transactions" ∧
      is_aggregate "SELECT counterparty FROM transactions" = true := by
  refine ⟨by decide, by decide, ?_, by decide⟩
  have h : add_default_limitL ("SELECT counterparty FROM transactions").data 100 =
      ("SELECT counterparty FROM transactions").data := by decide
  exact congrArg String.mk h

/-- C3 witness: a plain statement gets the default cap appended (and then
satisfies `has_limit`), an aggregate statement is left unchanged. -/
theorem add_default_limit_spec_witness :
    has_limit (add_default_limit "SELECT id FROM transactions" 100) = true ∧
      add_default_limit "SELECT COUNT(id) FROM transactions" 100 =
        "SELECT COUNT(id) FROM transactions" :=
  ⟨((add_default_limit_spec "SELECT id FROM transactions" 100).1
      (by decide) (by decide)).2,
    (add_default_limit_spec "SELECT COUNT(id) FROM transactions" 100).2 (by decide)⟩

